import Mathlib

/-!
Verification of the geometric layout engine of the parliamentarch
repository (src/parliamentarch/geometry.py, together with the seat
dispatch in src/parliamentarch/__init__.py).

The Python code computes with floats; the embedding models floats by real
numbers, so every trigonometric and division step is exact.  Machine
behaviour that raises is modelled with Except: Python raises
ZeroDivisionError on division by an int or float zero, IndexError on
list.pop from an empty list, and ValueError from math.asin outside
[-1, 1] and from the strategy match's catch-all case.
-/

namespace Parliamentarch

open Classical

/-- Python runtime errors the modelled code can raise. -/
inductive PyError
  | zeroDivisionError
  | indexError
  | valueError (msg : String)
deriving DecidableEq

/-- Python int(x) on a float: truncation toward zero. -/
noncomputable def pyInt (x : ℝ) : ℤ :=
  if 0 ≤ x then ⌊x⌋ else -⌊-x⌋

/-- Python round(x) to an int: round half to even.  Mathlib's round is
round half up; the two agree away from exact ties. -/
noncomputable def pyRound (x : ℝ) : ℤ :=
  if Int.fract x = 1 / 2 then (if Even ⌊x⌋ then ⌊x⌋ else ⌊x⌋ + 1) else round x

/-- geometry.py get_row_thickness: 1 / (4*nrows - 2). -/
noncomputable def get_row_thickness (nrows : ℤ) : ℝ :=
  1 / (4 * (nrows : ℝ) - 2)

/-- geometry.py get_rows_from_nrows: the maximal number of seats of each
row, inner to outer, as the loop appends them: for r in range(nrows),
int(radian_span_angle * R / (2*rad)) with R = .5 + 2*r*rad. -/
noncomputable def get_rows_from_nrows (nrows : ℤ) (span_angle : ℝ) : List ℤ :=
  let rad := get_row_thickness nrows
  let radian_span_angle := Real.pi * span_angle / 180
  (List.range nrows.toNat).map fun r : ℕ =>
    pyInt (radian_span_angle * (0.5 + 2 * (r : ℝ) * rad) / (2 * rad))

/-- geometry.py get_nrows_from_nseats: i starts at 1 and is incremented
while sum(get_rows_from_nrows(i, span_angle)) < nseats, so the returned
value is the first i from 1 upward with nseats <= sum.  When no i at all
satisfies the test (possible only for span_angle <= 0) the Python loop
never returns; this total model gives 0 in that never-returning case. -/
noncomputable def get_nrows_from_nseats (nseats : ℤ) (span_angle : ℝ) : ℕ :=
  if h : ∃ i : ℕ, 1 ≤ i ∧ nseats ≤ (get_rows_from_nrows (i : ℤ) span_angle).sum then
    Nat.find h
  else 0

/-- geometry.py FillingStrategy.  UNRECOGNIZED stands for any value
outside the three enum members: the match statement in get_seats_centers
sends every such value to the catch-all case that raises ValueError. -/
inductive FillingStrategy
  | DEFAULT
  | EMPTY_INNER
  | OUTER_PRIORITY
  | UNRECOGNIZED (value : String)
deriving DecidableEq

/-- What the strategy match binds besides starting_row: DEFAULT and
EMPTY_INNER bind filling_ratio, OUTER_PRIORITY binds
seats_on_starting_row.  The placement loop discriminates on
filling_strategy == OUTER_PRIORITY, which is exactly the fixed case. -/
inductive RowFill
  | ratio (filling_ratio : ℝ)
  | fixed (seats_on_starting_row : ℤ)

/-- One entry of the _SeatsCenterContainer dict: the (x, y) key and the
angle value, in insertion order. -/
abbrev Seat : Type := (ℝ × ℝ) × ℝ

/-- Python dict assignment d[k] = v: when the key is present its value is
updated in place (the entry keeps its position), otherwise the new entry
is appended at the end. -/
noncomputable def dictInsert (l : List Seat) (k : ℝ × ℝ) (v : ℝ) : List Seat :=
  if ∃ p ∈ l, p.1 = k then l.map (fun p => if p.1 = k then (p.1, v) else p)
  else l ++ [(k, v)]

/-- geometry.py _SeatsCenterContainer: the dict of seats plus the
seat_radius_factor and nrows attributes set before returning. -/
structure SeatsCenterContainer where
  positions : List Seat
  seat_radius_factor : ℝ
  nrows : ℤ

/-- The EMPTY_INNER while loop (geometry.py): while sum(rows[1:]) >=
nseats: rows.pop(0).  Popping an empty list raises IndexError, which
happens exactly when the test still holds on the empty list, that is
when nseats <= 0. -/
def emptyInnerLoop (nseats : ℤ) : List ℤ → Except PyError (List ℤ)
  | [] => if nseats ≤ 0 then .error .indexError else .ok []
  | a :: tail =>
      if nseats ≤ tail.sum then emptyInnerLoop nseats tail else .ok (a :: tail)

/-- The OUTER_PRIORITY while loop (geometry.py): while sum(rows) >
nseats: rows.pop(0). -/
def outerPriorityLoop (nseats : ℤ) : List ℤ → Except PyError (List ℤ)
  | [] => if nseats < 0 then .error .indexError else .ok []
  | a :: tail =>
      if nseats < a + tail.sum then outerPriorityLoop nseats tail
      else .ok (a :: tail)

/-- The match on filling_strategy in get_seats_centers: starting_row plus
the per-branch datum.  Python's nseats/sum(...) is int/int true division,
which raises ZeroDivisionError when the divisor is 0. -/
noncomputable def strategy_branch (nseats nrows : ℤ) (maxed_rows : List ℤ) :
    FillingStrategy → Except PyError (ℤ × RowFill)
  | .DEFAULT =>
      if maxed_rows.sum = 0 then .error .zeroDivisionError
      else .ok (0, .ratio ((nseats : ℝ) / (maxed_rows.sum : ℝ)))
  | .EMPTY_INNER =>
      match emptyInnerLoop nseats maxed_rows with
      | .error e => .error e
      | .ok rows =>
          if rows.sum = 0 then .error .zeroDivisionError
          else .ok (nrows - rows.length, .ratio ((nseats : ℝ) / (rows.sum : ℝ)))
  | .OUTER_PRIORITY =>
      match outerPriorityLoop nseats maxed_rows with
      | .error e => .error e
      | .ok rows => .ok (nrows - rows.length - 1, .fixed (nseats - rows.sum))
  | .UNRECOGNIZED v => .error (.valueError ("Unrecognized strategy : " ++ v))

/-- nseats_this_row of the placement loop, with placed standing for
len(positions).  Every reachable read of maxed_rows[r] has
0 <= r < nrows - 1, so Python's negative-index wrap-around never
triggers and getD is a faithful model of the subscript. -/
noncomputable def nseats_this_row (nseats nrows starting_row : ℤ) (fill : RowFill)
    (maxed_rows : List ℤ) (placed r : ℤ) : ℤ :=
  if r = nrows - 1 then nseats - placed
  else match fill with
    | .fixed seats_on_starting_row =>
        if r = starting_row then seats_on_starting_row
        else maxed_rows.getD r.toNat 0
    | .ratio filling_ratio =>
        pyRound (filling_ratio * (maxed_rows.getD r.toNat 0 : ℝ))

/-- The angle of seat s in a row: angle_margin + s * angle_increment. -/
noncomputable def seat_angle (angle_margin angle_increment : ℝ) (s : ℕ) : ℝ :=
  angle_margin + s * angle_increment

/-- Placement of one row of get_seats_centers.  Python raises
ZeroDivisionError on float division by a zero float or int, and math.asin
raises ValueError outside [-1, 1].  The source computes angle_increment
before testing nseats_this_row == 1, so a row of exactly one seat always
raises ZeroDivisionError and the single-seat branch is unreachable. -/
noncomputable def place_row (span_angle_margin seat_radius row_thicc : ℝ)
    (nseats_row r : ℤ) (positions : List Seat) : Except PyError (List Seat) :=
  let R : ℝ := 0.5 + 2 * (r : ℝ) * row_thicc
  if R = 0 then .error .zeroDivisionError
  else if 1 < |seat_radius / R| then .error (.valueError "math domain error")
  else
    let angle_margin := Real.arcsin (seat_radius / R) + span_angle_margin
    if nseats_row - 1 = 0 then .error .zeroDivisionError
    else
      let angle_increment := (Real.pi - 2 * angle_margin) / ((nseats_row : ℝ) - 1)
      if nseats_row = 1 then .ok (dictInsert positions (1, R) (Real.pi / 2))
      else .ok ((List.range nseats_row.toNat).foldl (fun ps s =>
          let angle := seat_angle angle_margin angle_increment s
          dictInsert ps (R * Real.cos angle + 1, R * Real.sin angle) angle)
        positions)

/-- range(a, b) over the integers. -/
def rowRange (a b : ℤ) : List ℤ :=
  (List.range (b - a).toNat).map fun j : ℕ => a + (j : ℤ)

/-- The row loop of get_seats_centers: for r in range(starting_row,
nrows), place the row's seats, threading the positions dict. -/
noncomputable def place_rows (nseats nrows starting_row : ℤ) (fill : RowFill)
    (maxed_rows : List ℤ) (span_angle_margin seat_radius row_thicc : ℝ) :
    List Seat → List ℤ → Except PyError (List Seat)
  | positions, [] => .ok positions
  | positions, r :: rest =>
      match place_row span_angle_margin seat_radius row_thicc
          (nseats_this_row nseats nrows starting_row fill maxed_rows
            (positions.length : ℤ) r) r positions with
      | .error e => .error e
      | .ok ps => place_rows nseats nrows starting_row fill maxed_rows
          span_angle_margin seat_radius row_thicc ps rest

/-- geometry.py get_seats_centers, keyword defaults min_nrows=0,
filling_strategy=DEFAULT, seat_radius_factor=1, span_angle=180. -/
noncomputable def get_seats_centers (nseats : ℤ) (min_nrows : ℤ := 0)
    (filling_strategy : FillingStrategy := .DEFAULT)
    (seat_radius_factor : ℝ := 1) (span_angle : ℝ := 180) :
    Except PyError SeatsCenterContainer :=
  let nrows : ℤ := max min_nrows (get_nrows_from_nseats nseats span_angle : ℤ)
  let row_thicc := get_row_thickness nrows
  let seat_radius := row_thicc * seat_radius_factor
  let span_angle_margin := (1 - span_angle / 180) * Real.pi / 2
  let maxed_rows := get_rows_from_nrows nrows span_angle
  match strategy_branch nseats nrows maxed_rows filling_strategy with
  | .error e => .error e
  | .ok (starting_row, fill) =>
      match place_rows nseats nrows starting_row fill maxed_rows
          span_angle_margin seat_radius row_thicc [] (rowRange starting_row nrows) with
      | .error e => .error e
      | .ok positions => .ok ⟨positions, seat_radius_factor, nrows⟩

/-- The per-row allocation sequence of the placement loop: the value
nseats_this_row takes at each processed row, with placed advanced by the
number of dict entries the row adds (max k 0 seats, whose keys are fresh:
distinct angles in [0, pi] on one circle per row, distinct radii across
rows). -/
noncomputable def allocFrom (nseats nrows starting_row : ℤ) (fill : RowFill)
    (maxed_rows : List ℤ) (placed : ℤ) : List ℤ → List ℤ
  | [] => []
  | r :: rest =>
      let k := nseats_this_row nseats nrows starting_row fill maxed_rows placed r
      k :: allocFrom nseats nrows starting_row fill maxed_rows (placed + max k 0) rest

/-- The comparison get_svg_from_attribution sorts the seats by:
sorted(results, key=results.__getitem__, reverse=True), that is by
descending angle. -/
def angleGE (p q : Seat) : Prop := q.2 ≤ p.2

instance : IsTotal Seat angleGE := ⟨fun a b => le_total b.2 a.2⟩

instance : IsTrans Seat angleGE := ⟨fun _ _ _ h1 h2 => le_trans h2 h1⟩

/-- The seat order get_svg_from_attribution (parliamentarch/__init__.py)
feeds to dispatch_seats: the container's entries sorted by descending
angle. -/
noncomputable def dispatch_order (c : SeatsCenterContainer) : List Seat :=
  c.positions.insertionSort angleGE

/-- The angles of a get_seats_centers result in dict insertion order;
empty when the call raised. -/
noncomputable def outputAngles : Except PyError SeatsCenterContainer → List ℝ
  | .error _ => []
  | .ok c => c.positions.map fun p => p.2

/-- pyInt agrees with the floor on nonnegative arguments. -/
theorem pyInt_of_nonneg {x : ℝ} (h : 0 ≤ x) : pyInt x = ⌊x⌋ := by
  unfold pyInt
  rw [if_pos h]

/-- Closed form of the capacity list: entry r is the floor of
spanAngleRadians * (nrows - 1/2 + r), the simplification of
spanAngleRadians * R(r) / (2 t). -/
theorem get_rows_eq_floor (n : ℤ) (span : ℝ) (hn : 1 ≤ n) (hspan : 0 < span) :
    get_rows_from_nrows n span
      = (List.range n.toNat).map
          fun r => ⌊Real.pi * span / 180 * ((n : ℝ) - 1 / 2 + (r : ℕ))⌋ := by
  unfold get_rows_from_nrows get_row_thickness
  refine List.map_congr_left fun r _ => ?_
  have hn' : (1 : ℝ) ≤ (n : ℝ) := by exact_mod_cast hn
  have hden : (0 : ℝ) < 4 * (n : ℝ) - 2 := by nlinarith
  have harg : Real.pi * span / 180 * (0.5 + 2 * (r : ℝ) * (1 / (4 * (n : ℝ) - 2)))
      / (2 * (1 / (4 * (n : ℝ) - 2)))
      = Real.pi * span / 180 * ((n : ℝ) - 1 / 2 + (r : ℕ)) := by
    field_simp
    ring
  rw [harg, pyInt_of_nonneg]
  have h1 : (0 : ℝ) ≤ Real.pi * span / 180 := by
    have := Real.pi_pos
    positivity
  have h2 : (0 : ℝ) ≤ (n : ℝ) - 1 / 2 + (r : ℕ) := by
    have : (0 : ℝ) ≤ (r : ℕ) := Nat.cast_nonneg r
    nlinarith
  exact mul_nonneg h1 h2

theorem get_rows_length (n : ℤ) (span : ℝ) :
    (get_rows_from_nrows n span).length = n.toNat := by
  simp [get_rows_from_nrows]

/-- Every capacity is nonnegative (for a positive span angle). -/
theorem get_rows_nonneg (n : ℤ) (span : ℝ) (hn : 1 ≤ n) (hspan : 0 < span) :
    ∀ x ∈ get_rows_from_nrows n span, 0 ≤ x := by
  rw [get_rows_eq_floor n span hn hspan]
  intro x hx
  obtain ⟨r, _, rfl⟩ := List.mem_map.mp hx
  apply Int.floor_nonneg.mpr
  have h1 : (0 : ℝ) ≤ Real.pi * span / 180 := by
    have := Real.pi_pos
    positivity
  have hn' : (1 : ℝ) ≤ (n : ℝ) := by exact_mod_cast hn
  have h2 : (0 : ℝ) ≤ (n : ℝ) - 1 / 2 + (r : ℕ) := by
    have : (0 : ℝ) ≤ (r : ℕ) := Nat.cast_nonneg r
    nlinarith
  exact mul_nonneg h1 h2

/-- The search of get_nrows_from_nseats has a witness: capacities grow
without bound with the row count, so some row count holds nseats. -/
theorem exists_enough_rows (nseats : ℤ) (span : ℝ) (hspan : 0 < span) :
    ∃ i : ℕ, 1 ≤ i ∧ nseats ≤ (get_rows_from_nrows (i : ℤ) span).sum := by
  rcases le_or_lt nseats 0 with h | h
  · exact ⟨1, le_refl 1,
      h.trans (List.sum_nonneg (get_rows_nonneg 1 span (by norm_num) hspan))⟩
  · have hσ : (0 : ℝ) < Real.pi * span / 180 := by
      have := Real.pi_pos
      positivity
    obtain ⟨i, hi⟩ :=
      exists_nat_gt (max 1 (((nseats : ℝ) / (Real.pi * span / 180) + 3 / 2) / 2))
    have hi1 : 1 ≤ i := by
      have h1 : (1 : ℝ) < (i : ℕ) := lt_of_le_of_lt (le_max_left _ _) hi
      exact_mod_cast h1.le
    have hi1' : (1 : ℤ) ≤ (i : ℤ) := by exact_mod_cast hi1
    refine ⟨i, hi1, ?_⟩
    have hmem : ⌊Real.pi * span / 180 * (((i : ℤ) : ℝ) - 1 / 2 + ((i - 1 : ℕ) : ℝ))⌋
        ∈ get_rows_from_nrows (i : ℤ) span := by
      rw [get_rows_eq_floor (i : ℤ) span hi1' hspan]
      exact List.mem_map_of_mem _ (List.mem_range.mpr (by omega))
    refine le_trans ?_
      (List.single_le_sum (get_rows_nonneg (i : ℤ) span hi1' hspan) _ hmem)
    apply Int.le_floor.mpr
    have hcast : ((i - 1 : ℕ) : ℝ) = (i : ℕ) - 1 := by
      have : (1 : ℕ) ≤ i := hi1
      push_cast [this]
      ring
    have hgt : ((nseats : ℝ) / (Real.pi * span / 180) + 3 / 2) / 2 < (i : ℕ) :=
      lt_of_le_of_lt (le_max_right _ _) hi
    have hdiv : (nseats : ℝ) / (Real.pi * span / 180) < 2 * (i : ℕ) - 3 / 2 := by
      nlinarith
    have := (div_lt_iff hσ).mp hdiv
    push_cast [hcast]
    nlinarith

/-- The dite in get_nrows_from_nseats takes its positive branch for a
positive span angle, and Nat.find returns the least valid row count. -/
theorem get_nrows_isLeast (nseats : ℤ) (span : ℝ) (hspan : 0 < span) :
    (1 ≤ get_nrows_from_nseats nseats span ∧
      nseats ≤ (get_rows_from_nrows (get_nrows_from_nseats nseats span : ℤ) span).sum) ∧
    ∀ m : ℕ, 1 ≤ m → nseats ≤ (get_rows_from_nrows (m : ℤ) span).sum →
      get_nrows_from_nseats nseats span ≤ m := by
  have h := exists_enough_rows nseats span hspan
  unfold get_nrows_from_nseats
  rw [dif_pos h]
  exact ⟨Nat.find_spec h, fun m h1 h2 => Nat.find_min' h ⟨h1, h2⟩⟩

/-- Characterization of the value of get_nrows_from_nseats. -/
theorem get_nrows_eq_iff (nseats : ℤ) (span : ℝ) (hspan : 0 < span) (m : ℕ) :
    get_nrows_from_nseats nseats span = m ↔
      (1 ≤ m ∧ nseats ≤ (get_rows_from_nrows (m : ℤ) span).sum) ∧
      ∀ k < m, ¬(1 ≤ k ∧ nseats ≤ (get_rows_from_nrows (k : ℤ) span).sum) := by
  have h := exists_enough_rows nseats span hspan
  unfold get_nrows_from_nseats
  rw [dif_pos h, Nat.find_eq_iff]

theorem floor_pi_half : ⌊Real.pi * (1 / 2 : ℝ)⌋ = 1 := by
  rw [Int.floor_eq_iff]
  constructor
  · push_cast
    nlinarith [Real.pi_gt_three]
  · push_cast
    nlinarith [Real.pi_lt_four]

theorem floor_pi_three_halves : ⌊Real.pi * (3 / 2 : ℝ)⌋ = 4 := by
  rw [Int.floor_eq_iff]
  constructor
  · push_cast
    nlinarith [Real.pi_gt_d2]
  · push_cast
    nlinarith [Real.pi_lt_d2]

theorem floor_pi_five_halves : ⌊Real.pi * (5 / 2 : ℝ)⌋ = 7 := by
  rw [Int.floor_eq_iff]
  constructor
  · push_cast
    nlinarith [Real.pi_gt_d2]
  · push_cast
    nlinarith [Real.pi_lt_d2]

theorem rows_one : get_rows_from_nrows 1 180 = [1] := by
  rw [get_rows_eq_floor 1 180 (by norm_num) (by norm_num)]
  have h : Real.pi * 180 / 180 * (((1 : ℤ) : ℝ) - 1 / 2 + ((0 : ℕ) : ℝ))
      = Real.pi * (1 / 2) := by
    push_cast
    ring
  rw [show (1 : ℤ).toNat = 1 from rfl, show List.range 1 = [0] from rfl]
  simp only [List.map_cons, List.map_nil]
  rw [h, floor_pi_half]

theorem rows_two : get_rows_from_nrows 2 180 = [4, 7] := by
  rw [get_rows_eq_floor 2 180 (by norm_num) (by norm_num)]
  have h0 : Real.pi * 180 / 180 * (((2 : ℤ) : ℝ) - 1 / 2 + ((0 : ℕ) : ℝ))
      = Real.pi * (3 / 2) := by
    push_cast
    ring
  have h1 : Real.pi * 180 / 180 * (((2 : ℤ) : ℝ) - 1 / 2 + ((1 : ℕ) : ℝ))
      = Real.pi * (5 / 2) := by
    push_cast
    ring
  rw [show (2 : ℤ).toNat = 2 from rfl, show List.range 2 = [0, 1] from rfl]
  simp only [List.map_cons, List.map_nil]
  rw [h0, h1, floor_pi_three_halves, floor_pi_five_halves]

theorem nrows_of_le_one {nseats : ℤ} (h : nseats ≤ 1) :
    get_nrows_from_nseats nseats 180 = 1 := by
  rw [get_nrows_eq_iff nseats 180 (by norm_num)]
  refine ⟨⟨le_refl 1, ?_⟩, ?_⟩
  · simp only [Nat.cast_one]
    rw [rows_one]
    simpa using h
  · intro k hk
    intro hcontra
    omega

theorem nrows_of_two_to_eleven {nseats : ℤ} (h2 : 2 ≤ nseats) (h11 : nseats ≤ 11) :
    get_nrows_from_nseats nseats 180 = 2 := by
  rw [get_nrows_eq_iff nseats 180 (by norm_num)]
  refine ⟨⟨by norm_num, ?_⟩, ?_⟩
  · simp only [Nat.cast_ofNat]
    rw [rows_two]
    simpa using h11
  · intro k hk
    interval_cases k
    · intro hcontra
      omega
    · simp only [Nat.cast_one]
      rw [rows_one]
      intro hcontra
      simp at hcontra
      omega

/-- C6: for every rowCount >= 1 and every spanAngleDegrees with
0 < spanAngleDegrees <= 180, get_rows_from_nrows(rowCount, spanAngleDegrees)
returns a list of length rowCount whose entry at index r (0-based) equals
floor(spanAngleRadians * R(r) / (2 t)), where t = 1/(4 rowCount - 2),
R(r) = 0.5 + 2 r t, and spanAngleRadians = pi * spanAngleDegrees / 180. -/
theorem get_rows_from_nrows_spec (nrows : ℤ) (span_angle : ℝ) (h1 : 1 ≤ nrows)
    (h2 : 0 < span_angle) (h3 : span_angle ≤ 180) :
    ((get_rows_from_nrows nrows span_angle).length : ℤ) = nrows ∧
    ∀ r : ℕ, r < nrows.toNat →
      (get_rows_from_nrows nrows span_angle).getD r 0 =
        ⌊Real.pi * span_angle / 180
          * (0.5 + 2 * (r : ℝ) * (1 / (4 * (nrows : ℝ) - 2)))
          / (2 * (1 / (4 * (nrows : ℝ) - 2)))⌋ := by
  constructor
  · rw [get_rows_length]
    exact Int.toNat_of_nonneg (by omega)
  · intro r hr
    rw [get_rows_eq_floor nrows span_angle h1 h2]
    have hlen : r < ((List.range nrows.toNat).map
        (fun r : ℕ => ⌊Real.pi * span_angle / 180 * ((nrows : ℝ) - 1 / 2 + (r : ℕ))⌋)).length := by
      simpa using hr
    rw [List.getD_eq_getElem _ _ hlen]
    simp only [List.getElem_map, List.getElem_range]
    congr 1
    have hn' : (1 : ℝ) ≤ (nrows : ℝ) := by exact_mod_cast h1
    have hden : (0 : ℝ) < 4 * (nrows : ℝ) - 2 := by nlinarith
    field_simp
    ring

/-- Witness for get_rows_from_nrows_spec at rowCount 2, span angle 180. -/
theorem get_rows_from_nrows_spec_witness :
    (1 : ℤ) ≤ 2 ∧ (0 : ℝ) < 180 ∧ (180 : ℝ) ≤ 180 ∧
      (((get_rows_from_nrows 2 180).length : ℤ) = 2 ∧
      ∀ r : ℕ, r < (2 : ℤ).toNat →
        (get_rows_from_nrows 2 180).getD r 0 =
          ⌊Real.pi * 180 / 180
            * (0.5 + 2 * (r : ℝ) * (1 / (4 * ((2 : ℤ) : ℝ) - 2)))
            / (2 * (1 / (4 * ((2 : ℤ) : ℝ) - 2)))⌋) :=
  ⟨by norm_num, by norm_num, le_refl 180,
    get_rows_from_nrows_spec 2 180 (by norm_num) (by norm_num) (le_refl 180)⟩

/-- C7: get_nrows_from_nseats(seatCount, spanAngleDegrees) returns the
smallest rowCount >= 1 such that the capacities of rowCount rows sum to
at least seatCount; in particular it returns 1 for seatCount = 0. -/
theorem get_nrows_from_nseats_spec (nseats : ℤ) (span : ℝ) (h0 : 0 ≤ nseats)
    (h1 : 0 < span) (h2 : span ≤ 180) :
    (1 ≤ get_nrows_from_nseats nseats span ∧
      nseats ≤ (get_rows_from_nrows (get_nrows_from_nseats nseats span : ℤ) span).sum ∧
      ∀ m : ℕ, 1 ≤ m → nseats ≤ (get_rows_from_nrows (m : ℤ) span).sum →
        get_nrows_from_nseats nseats span ≤ m) ∧
    get_nrows_from_nseats 0 span = 1 := by
  obtain ⟨⟨ha, hb⟩, hc⟩ := get_nrows_isLeast nseats span h1
  refine ⟨⟨ha, hb, hc⟩, ?_⟩
  rw [get_nrows_eq_iff 0 span h1]
  refine ⟨⟨le_refl 1, ?_⟩, ?_⟩
  · simp only [Nat.cast_one]
    exact List.sum_nonneg (get_rows_nonneg 1 span (by norm_num) h1)
  · intro k hk hcontra
    omega

/-- Witness for get_nrows_from_nseats_spec at seatCount 0, span 180. -/
theorem get_nrows_from_nseats_spec_witness :
    (0 : ℤ) ≤ 0 ∧ (0 : ℝ) < 180 ∧ (180 : ℝ) ≤ 180 ∧
      ((1 ≤ get_nrows_from_nseats 0 180 ∧
        (0 : ℤ) ≤ (get_rows_from_nrows (get_nrows_from_nseats 0 180 : ℤ) 180).sum ∧
        ∀ m : ℕ, 1 ≤ m → (0 : ℤ) ≤ (get_rows_from_nrows (m : ℤ) 180).sum →
          get_nrows_from_nseats 0 180 ≤ m) ∧
      get_nrows_from_nseats 0 180 = 1) :=
  ⟨le_refl 0, by norm_num, le_refl 180,
    get_nrows_from_nseats_spec 0 180 (le_refl 0) (by norm_num) (le_refl 180)⟩

/-- C9: a filling_strategy value outside the three enum members makes
get_seats_centers raise ValueError from the match's catch-all case, with
no seat positions computed: the result is the bare error and nothing else,
whatever the other arguments are. -/
theorem unrecognized_strategy_rejected (nseats min_nrows : ℤ) (v : String)
    (seat_radius_factor span_angle : ℝ) :
    get_seats_centers nseats min_nrows (.UNRECOGNIZED v) seat_radius_factor span_angle
      = .error (.valueError ("Unrecognized strategy : " ++ v)) := rfl

/-- C10: the upward linear search of get_nrows_from_nseats terminates:
for 0 < spanAngleDegrees <= 180 some rowCount >= 1 has total capacity at
least seatCount, because the per-row capacities grow without bound. -/
theorem search_has_enough_rows (nseats : ℤ) (span : ℝ) (h0 : 0 ≤ nseats)
    (h1 : 0 < span) (h2 : span ≤ 180) :
    ∃ n : ℕ, 1 ≤ n ∧ nseats ≤ (get_rows_from_nrows (n : ℤ) span).sum :=
  exists_enough_rows nseats span h1

/-- Witness for search_has_enough_rows at seatCount 3, span 180. -/
theorem search_has_enough_rows_witness :
    (0 : ℤ) ≤ 3 ∧ (0 : ℝ) < 180 ∧ (180 : ℝ) ≤ 180 ∧
      ∃ n : ℕ, 1 ≤ n ∧ (3 : ℤ) ≤ (get_rows_from_nrows (n : ℤ) 180).sum :=
  ⟨by norm_num, by norm_num, le_refl 180,
    search_has_enough_rows 3 180 (by norm_num) (by norm_num) (le_refl 180)⟩

/-- A suffix of a list of nonnegatives sums to at most the whole list. -/
theorem sum_drop_le_sum {l : List ℤ} (h : ∀ x ∈ l, 0 ≤ x) (j : ℕ) :
    (l.drop j).sum ≤ l.sum := by
  have h1 := List.sum_take_add_sum_drop l j
  have h2 : 0 ≤ (l.take j).sum :=
    List.sum_nonneg fun x hx => h x (List.mem_of_mem_take hx)
  omega

/-- The OUTER_PRIORITY pop loop returns the longest suffix whose sum is
at most nseats; for nseats >= 0 it cannot raise. -/
theorem outerPriorityLoop_spec (nseats : ℤ) (h0 : 0 ≤ nseats) (l : List ℤ) :
    ∃ rows : List ℤ, outerPriorityLoop nseats l = .ok rows ∧
      rows.length ≤ l.length ∧
      rows = l.drop (l.length - rows.length) ∧
      rows.sum ≤ nseats ∧
      ∀ j : ℕ, j < l.length - rows.length → nseats < (l.drop j).sum := by
  induction l with
  | nil =>
      refine ⟨[], ?_, le_refl 0, by simp, by simpa using h0, ?_⟩
      · unfold outerPriorityLoop
        rw [if_neg (by omega)]
      · intro j hj
        exact absurd hj (by simp)
  | cons a tl ih =>
      by_cases hc : nseats < a + tl.sum
      · obtain ⟨rows, h1, hlen, h2, h3, h4⟩ := ih
        refine ⟨rows, ?_, ?_, ?_, h3, ?_⟩
        · unfold outerPriorityLoop
          rw [if_pos hc]
          exact h1
        · simp only [List.length_cons]
          omega
        · have he : (a :: tl).length - rows.length = (tl.length - rows.length) + 1 := by
            simp only [List.length_cons]
            omega
          rw [he, List.drop_succ_cons]
          exact h2
        · intro j hj
          match j with
          | 0 => simpa using hc
          | j + 1 =>
              rw [List.drop_succ_cons]
              apply h4
              simp only [List.length_cons] at hj
              omega
      · refine ⟨a :: tl, ?_, le_refl _, by simp, by simpa using not_lt.mp hc, ?_⟩
        · unfold outerPriorityLoop
          rw [if_neg hc]
        · intro j hj
          rw [Nat.sub_self] at hj
          exact absurd hj (Nat.not_lt_zero j)

/-- The EMPTY_INNER pop loop returns the shortest suffix whose sum still
reaches nseats, provided nseats >= 1 and the whole list reaches it. -/
theorem emptyInnerLoop_spec (nseats : ℤ) (h1 : 1 ≤ nseats) (l : List ℤ)
    (hsum : nseats ≤ l.sum) (hnn : ∀ x ∈ l, 0 ≤ x) :
    ∃ rows : List ℤ, emptyInnerLoop nseats l = .ok rows ∧
      rows.length ≤ l.length ∧ 1 ≤ rows.length ∧
      rows = l.drop (l.length - rows.length) ∧
      nseats ≤ rows.sum ∧
      ∀ j : ℕ, l.length - rows.length < j → (l.drop j).sum < nseats := by
  induction l with
  | nil =>
      exfalso
      simp only [List.sum_nil] at hsum
      omega
  | cons a tl ih =>
      by_cases hc : nseats ≤ tl.sum
      · obtain ⟨rows, hr1, hlen, hlen1, hr2, hr3, hr4⟩ :=
          ih hc fun x hx => hnn x (List.mem_cons_of_mem a hx)
        refine ⟨rows, ?_, ?_, hlen1, ?_, hr3, ?_⟩
        · unfold emptyInnerLoop
          rw [if_pos hc]
          exact hr1
        · simp only [List.length_cons]
          omega
        · have he : (a :: tl).length - rows.length = (tl.length - rows.length) + 1 := by
            simp only [List.length_cons]
            omega
          rw [he, List.drop_succ_cons]
          exact hr2
        · intro j hj
          match j with
          | 0 => exact absurd hj (Nat.not_lt_zero _)
          | j + 1 =>
              rw [List.drop_succ_cons]
              apply hr4
              simp only [List.length_cons] at hj
              omega
      · refine ⟨a :: tl, ?_, le_refl _, by simp, by simp, hsum, ?_⟩
        · unfold emptyInnerLoop
          rw [if_neg hc]
        · intro j hj
          match j with
          | 0 =>
              exfalso
              rw [Nat.sub_self] at hj
              exact absurd hj (Nat.not_lt_zero 0)
          | j + 1 =>
              rw [List.drop_succ_cons]
              exact lt_of_le_of_lt
                (sum_drop_le_sum (fun x hx => hnn x (List.mem_cons_of_mem a hx)) j)
                (not_le.mp hc)

theorem rowRange_nil (a b : ℤ) (h : b ≤ a) : rowRange a b = [] := by
  unfold rowRange
  rw [show (b - a).toNat = 0 by omega]
  rfl

theorem rowRange_cons (a b : ℤ) (h : a < b) :
    rowRange a b = a :: rowRange (a + 1) b := by
  unfold rowRange
  rw [show (b - a).toNat = (b - (a + 1)).toNat + 1 by omega, List.range_succ_eq_map]
  simp only [List.map_cons, Nat.cast_zero, add_zero, List.map_map]
  congr 1
  refine List.map_congr_left fun j _ => ?_
  simp only [Function.comp_apply]
  push_cast
  ring

theorem mem_rowRange {a b r : ℤ} : r ∈ rowRange a b ↔ a ≤ r ∧ r < b := by
  unfold rowRange
  simp only [List.mem_map, List.mem_range]
  constructor
  · rintro ⟨j, hj, rfl⟩
    omega
  · intro ⟨ha, hb⟩
    exact ⟨(r - a).toNat, by omega, by omega⟩

theorem round_nonneg {x : ℝ} (h : 0 ≤ x) : 0 ≤ round x := by
  rw [round_eq]
  apply Int.floor_nonneg.mpr
  linarith

theorem pyRound_nonneg {x : ℝ} (h : 0 ≤ x) : 0 ≤ pyRound x := by
  unfold pyRound
  have hf := Int.floor_nonneg.mpr h
  split
  · split
    · exact hf
    · omega
  · exact round_nonneg h

theorem allocFrom_nil (nseats nrows starting_row : ℤ) (fill : RowFill)
    (maxed_rows : List ℤ) (placed : ℤ) :
    allocFrom nseats nrows starting_row fill maxed_rows placed [] = [] := rfl

theorem allocFrom_cons (nseats nrows starting_row : ℤ) (fill : RowFill)
    (maxed_rows : List ℤ) (placed r : ℤ) (rest : List ℤ) :
    allocFrom nseats nrows starting_row fill maxed_rows placed (r :: rest)
      = nseats_this_row nseats nrows starting_row fill maxed_rows placed r
        :: allocFrom nseats nrows starting_row fill maxed_rows
            (placed + max (nseats_this_row nseats nrows starting_row fill
              maxed_rows placed r) 0) rest := rfl

/-- Under OUTER_PRIORITY, every processed row past the starting row
receives exactly its capacity: processing rows r .. nrows-1 (with
s < r, so the starting row is behind) when the seats still to place are
exactly the remaining capacity reproduces the capacity suffix. -/
theorem allocFrom_fixed_caps (nseats nrows s k0 : ℤ) (caps : List ℤ)
    (hnn : ∀ x ∈ caps, 0 ≤ x) (hlen : (caps.length : ℤ) = nrows) :
    ∀ m : ℕ, ∀ r p : ℤ, r = nrows - m → 0 ≤ r → r < nrows → s < r →
      p + (caps.drop r.toNat).sum = nseats →
      allocFrom nseats nrows s (.fixed k0) caps p (rowRange r nrows)
        = caps.drop r.toNat := by
  intro m
  induction m with
  | zero =>
      intro r p hr h0 hlt hs hsum
      omega
  | succ m ih =>
      intro r p hr h0 hlt hs hsum
      have hrN : r.toNat < caps.length := by omega
      have hdrop := List.drop_eq_getElem_cons hrN
      rw [rowRange_cons r nrows hlt, allocFrom_cons]
      by_cases hlast : r = nrows - 1
      · have hrange : rowRange (r + 1) nrows = [] := rowRange_nil _ _ (by omega)
        have hd1 : (caps.drop r.toNat).length = 1 := by
          rw [List.length_drop]
          omega
        obtain ⟨c, hc⟩ := List.length_eq_one.mp hd1
        have hk : nseats_this_row nseats nrows s (.fixed k0) caps p r = nseats - p := by
          unfold nseats_this_row
          rw [if_pos hlast]
        have hcval : c = nseats - p := by
          rw [hc] at hsum
          simp only [List.sum_cons, List.sum_nil, add_zero] at hsum
          omega
        rw [hk, hrange, allocFrom_nil, hc, hcval]
      · have hk : nseats_this_row nseats nrows s (.fixed k0) caps p r
            = caps.getD r.toNat 0 := by
          unfold nseats_this_row
          rw [if_neg hlast]
          simp only [if_neg (by omega : ¬ r = s)]
        have hgetD : caps.getD r.toNat 0 = caps[r.toNat] := List.getD_eq_getElem _ _ hrN
        have hmem : caps[r.toNat] ∈ caps := List.getElem_mem hrN
        have hcnn : 0 ≤ caps[r.toNat] := hnn _ hmem
        have hmax : max (caps.getD r.toNat 0) 0 = caps.getD r.toNat 0 := by
          rw [hgetD]
          omega
        rw [hk, hmax]
        have hsucc : (r + 1).toNat = r.toNat + 1 := by omega
        have hsum' : (p + caps.getD r.toNat 0) + (caps.drop (r + 1).toNat).sum = nseats := by
          rw [hgetD, hsucc]
          rw [hdrop] at hsum
          simp only [List.sum_cons] at hsum
          omega
        have := ih (r + 1) (p + caps.getD r.toNat 0) (by omega) (by omega) (by omega)
          (by omega) hsum'
        rw [this, hsucc, hdrop, hgetD]

/-- Under a ratio fill every non-last processed row receives
round(ratio * capacity), and the last row receives all seats not yet
placed. -/
theorem allocFrom_ratio_caps (nseats nrows s : ℤ) (q : ℝ) (hq : 0 ≤ q)
    (caps : List ℤ) (hnn : ∀ x ∈ caps, 0 ≤ x) (hlen : (caps.length : ℤ) = nrows) :
    ∀ m : ℕ, ∀ r p : ℤ, r = nrows - m → 0 ≤ r → r < nrows →
      allocFrom nseats nrows s (.ratio q) caps p (rowRange r nrows)
        = (caps.drop r.toNat).dropLast.map (fun c : ℤ => pyRound (q * (c : ℝ)))
          ++ [nseats - (p + ((caps.drop r.toNat).dropLast.map
                (fun c : ℤ => pyRound (q * (c : ℝ)))).sum)] := by
  intro m
  induction m with
  | zero =>
      intro r p hr h0 hlt
      omega
  | succ m ih =>
      intro r p hr h0 hlt
      have hrN : r.toNat < caps.length := by omega
      have hdrop := List.drop_eq_getElem_cons hrN
      rw [rowRange_cons r nrows hlt, allocFrom_cons]
      by_cases hlast : r = nrows - 1
      · have hrange : rowRange (r + 1) nrows = [] := rowRange_nil _ _ (by omega)
        have hd1 : (caps.drop r.toNat).length = 1 := by
          rw [List.length_drop]
          omega
        obtain ⟨c, hc⟩ := List.length_eq_one.mp hd1
        have hk : nseats_this_row nseats nrows s (.ratio q) caps p r = nseats - p := by
          unfold nseats_this_row
          rw [if_pos hlast]
        rw [hk, hrange, allocFrom_nil, hc]
        simp
      · have hk : nseats_this_row nseats nrows s (.ratio q) caps p r
            = pyRound (q * (caps.getD r.toNat 0 : ℝ)) := by
          unfold nseats_this_row
          rw [if_neg hlast]
        have hgetD : caps.getD r.toNat 0 = caps[r.toNat] := List.getD_eq_getElem _ _ hrN
        have hmem : caps[r.toNat] ∈ caps := List.getElem_mem hrN
        have hcnn : (0 : ℝ) ≤ (caps.getD r.toNat 0 : ℝ) := by
          rw [hgetD]
          exact_mod_cast hnn _ hmem
        have hknn : 0 ≤ pyRound (q * (caps.getD r.toNat 0 : ℝ)) :=
          pyRound_nonneg (mul_nonneg hq hcnn)
        have hmax : max (pyRound (q * (caps.getD r.toNat 0 : ℝ))) 0
            = pyRound (q * (caps.getD r.toNat 0 : ℝ)) := by omega
        rw [hk, hmax]
        have hsucc : (r + 1).toNat = r.toNat + 1 := by omega
        have hih := ih (r + 1) (p + pyRound (q * (caps.getD r.toNat 0 : ℝ)))
          (by omega) (by omega) (by omega)
        have htail : caps.drop (r.toNat + 1) ≠ [] := by
          intro hcon
          have := congrArg List.length hcon
          simp only [List.length_drop, List.length_nil] at this
          omega
        rw [hih, hsucc, hdrop, List.dropLast_cons_of_ne_nil htail, hgetD]
        simp only [List.map_cons, List.sum_cons, List.cons_append, add_assoc]

/-- C4: with filling_strategy = OUTER_PRIORITY and maxRows the capacities
of the computed rowCount rows, the pop loop keeps exactly the maximal
suffix of rows whose combined capacity is at most seatCount; every row of
that suffix is allocated its full capacity ((seatCount - suffix sum) ::
rows reproduces the capacities), the row immediately inside the suffix is
allocated exactly seatCount minus the suffix total, and rows further
inside are not processed at all, receiving zero seats. -/
theorem outer_priority_spec (nseats n : ℤ) (caps : List ℤ)
    (h0 : 0 ≤ nseats)
    (hn : n = (get_nrows_from_nseats nseats 180 : ℤ))
    (hcaps : caps = get_rows_from_nrows n 180) :
    ∃ rows : List ℤ,
      outerPriorityLoop nseats caps = .ok rows ∧
      strategy_branch nseats n caps .OUTER_PRIORITY
        = .ok (n - rows.length - 1, .fixed (nseats - rows.sum)) ∧
      rows = caps.drop (caps.length - rows.length) ∧
      rows.sum ≤ nseats ∧
      (∀ j : ℕ, j < caps.length - rows.length → nseats < (caps.drop j).sum) ∧
      allocFrom nseats n (n - rows.length - 1) (.fixed (nseats - rows.sum)) caps 0
          (rowRange (n - rows.length - 1) n)
        = (nseats - rows.sum) :: rows ∧
      ∀ r : ℤ, 0 ≤ r → r < n - rows.length - 1 →
        r ∉ rowRange (n - rows.length - 1) n := by
  have hN := get_nrows_isLeast nseats 180 (by norm_num)
  obtain ⟨⟨hN1, hNsum⟩, _⟩ := hN
  have hn1 : 1 ≤ n := by
    rw [hn]
    exact_mod_cast hN1
  have hnn : ∀ x ∈ caps, 0 ≤ x := by
    rw [hcaps]
    exact get_rows_nonneg n 180 hn1 (by norm_num)
  have hlenN : (caps.length : ℤ) = n := by
    rw [hcaps, get_rows_length]
    omega
  have hcapsum : nseats ≤ caps.sum := by
    rw [hcaps, hn]
    rw [hn] at hcaps
    exact hNsum
  obtain ⟨rows, hloop, hle, hsuf, hsum, hmax⟩ := outerPriorityLoop_spec nseats h0 caps
  refine ⟨rows, hloop, ?_, hsuf, hsum, hmax, ?_, ?_⟩
  · simp only [strategy_branch, hloop]
  · have hslt : n - rows.length - 1 < n := by omega
    rw [rowRange_cons _ n hslt, allocFrom_cons]
    have hhead : nseats_this_row nseats n (n - rows.length - 1)
        (.fixed (nseats - rows.sum)) caps 0 (n - rows.length - 1)
        = nseats - rows.sum := by
      by_cases hs : n - (rows.length : ℤ) - 1 = n - 1
      · have hlen0 : rows.length = 0 := by omega
        have hrnil : rows = [] := List.eq_nil_of_length_eq_zero hlen0
        unfold nseats_this_row
        rw [if_pos hs, hrnil]
        simp
      · unfold nseats_this_row
        rw [if_neg hs]
        simp
    rw [hhead, show max (nseats - rows.sum) 0 = nseats - rows.sum by omega]
    congr 1
    by_cases hs : n - (rows.length : ℤ) - 1 = n - 1
    · have hlen0 : rows.length = 0 := by omega
      have hrnil : rows = [] := List.eq_nil_of_length_eq_zero hlen0
      rw [rowRange_nil _ _ (by omega), allocFrom_nil, hrnil]
    · have hdropeq : caps.drop ((n - (rows.length : ℤ) - 1) + 1).toNat = rows := by
        have hidx : ((n - (rows.length : ℤ) - 1) + 1).toNat
            = caps.length - rows.length := by omega
        rw [hidx]
        exact hsuf.symm
      have halloc := allocFrom_fixed_caps nseats n (n - rows.length - 1)
        (nseats - rows.sum) caps hnn hlenN rows.length
        ((n - rows.length - 1) + 1) (0 + (nseats - rows.sum))
        (by omega) (by omega) (by omega) (by omega)
        (by rw [hdropeq]; omega)
      rw [halloc, hdropeq]
  · intro r _ hr hmem
    rw [mem_rowRange] at hmem
    omega

/-- Witness for outer_priority_spec at seatCount 2: the computed row
count is 2 with capacities [4, 7]. -/
theorem outer_priority_spec_witness :
    (0 : ℤ) ≤ 2 ∧ (2 : ℤ) = (get_nrows_from_nseats 2 180 : ℤ) ∧
    ([4, 7] : List ℤ) = get_rows_from_nrows 2 180 ∧
    ∃ rows : List ℤ,
      outerPriorityLoop 2 [4, 7] = .ok rows ∧
      strategy_branch 2 2 [4, 7] .OUTER_PRIORITY
        = .ok (2 - rows.length - 1, .fixed (2 - rows.sum)) ∧
      rows = ([4, 7] : List ℤ).drop (([4, 7] : List ℤ).length - rows.length) ∧
      rows.sum ≤ 2 ∧
      (∀ j : ℕ, j < ([4, 7] : List ℤ).length - rows.length →
        2 < (([4, 7] : List ℤ).drop j).sum) ∧
      allocFrom 2 2 (2 - rows.length - 1) (.fixed (2 - rows.sum)) [4, 7] 0
          (rowRange (2 - rows.length - 1) 2)
        = (2 - rows.sum) :: rows ∧
      ∀ r : ℤ, 0 ≤ r → r < 2 - rows.length - 1 →
        r ∉ rowRange (2 - rows.length - 1) 2 :=
  ⟨by norm_num,
    by rw [nrows_of_two_to_eleven (by norm_num) (by norm_num)]; norm_num,
    rows_two.symm,
    outer_priority_spec 2 2 [4, 7] (by norm_num)
      (by rw [nrows_of_two_to_eleven (by norm_num) (by norm_num)]; norm_num)
      rows_two.symm⟩

/-- C5: with filling_strategy = EMPTY_INNER and seatCount >= 1, the pop
loop keeps the minimal suffix of rows whose combined capacity reaches
seatCount; rows before the suffix are not processed (zero seats), each
non-last suffix row is allocated round(fillingRatio * capacity) with
fillingRatio = seatCount / suffix total, and the last (outermost) row is
allocated all remaining seats. -/
theorem empty_inner_spec (nseats n : ℤ) (caps : List ℤ)
    (h1 : 1 ≤ nseats)
    (hn : n = (get_nrows_from_nseats nseats 180 : ℤ))
    (hcaps : caps = get_rows_from_nrows n 180) :
    ∃ rows : List ℤ,
      emptyInnerLoop nseats caps = .ok rows ∧
      strategy_branch nseats n caps .EMPTY_INNER
        = .ok (n - rows.length, .ratio ((nseats : ℝ) / (rows.sum : ℝ))) ∧
      rows = caps.drop (caps.length - rows.length) ∧
      nseats ≤ rows.sum ∧
      (∀ j : ℕ, caps.length - rows.length < j → (caps.drop j).sum < nseats) ∧
      allocFrom nseats n (n - rows.length) (.ratio ((nseats : ℝ) / (rows.sum : ℝ)))
          caps 0 (rowRange (n - rows.length) n)
        = rows.dropLast.map
            (fun c : ℤ => pyRound ((nseats : ℝ) / (rows.sum : ℝ) * (c : ℝ)))
          ++ [nseats - (rows.dropLast.map
              (fun c : ℤ => pyRound ((nseats : ℝ) / (rows.sum : ℝ) * (c : ℝ)))).sum] ∧
      ∀ r : ℤ, 0 ≤ r → r < n - rows.length → r ∉ rowRange (n - rows.length) n := by
  have hN := get_nrows_isLeast nseats 180 (by norm_num)
  obtain ⟨⟨hN1, hNsum⟩, _⟩ := hN
  have hn1 : 1 ≤ n := by
    rw [hn]
    exact_mod_cast hN1
  have hnn : ∀ x ∈ caps, 0 ≤ x := by
    rw [hcaps]
    exact get_rows_nonneg n 180 hn1 (by norm_num)
  have hlenN : (caps.length : ℤ) = n := by
    rw [hcaps, get_rows_length]
    omega
  have hcapsum : nseats ≤ caps.sum := by
    rw [hcaps, hn]
    rw [hn] at hcaps
    exact hNsum
  obtain ⟨rows, hloop, hle, hlen1, hsuf, hsumge, hmin⟩ :=
    emptyInnerLoop_spec nseats h1 caps hcapsum hnn
  have hq : (0 : ℝ) ≤ (nseats : ℝ) / (rows.sum : ℝ) := by
    apply div_nonneg
    · exact_mod_cast le_trans (by norm_num) h1
    · exact_mod_cast le_trans (by norm_num) (le_trans h1 hsumge)
  refine ⟨rows, hloop, ?_, hsuf, hsumge, hmin, ?_, ?_⟩
  · simp only [strategy_branch, hloop]
    rw [if_neg (by omega)]
  · have hdropeq : caps.drop (n - (rows.length : ℤ)).toNat = rows := by
      have hidx : (n - (rows.length : ℤ)).toNat = caps.length - rows.length := by
        omega
      rw [hidx]
      exact hsuf.symm
    have halloc := allocFrom_ratio_caps nseats n (n - rows.length)
      ((nseats : ℝ) / (rows.sum : ℝ)) hq caps hnn hlenN
      (rows.length : ℕ) (n - rows.length) 0
      (by omega) (by omega) (by omega)
    rw [halloc, hdropeq]
    simp only [zero_add]
  · intro r _ hr hmem
    rw [mem_rowRange] at hmem
    omega

/-- Witness for empty_inner_spec at seatCount 5: the computed row count
is 2 with capacities [4, 7]. -/
theorem empty_inner_spec_witness :
    (1 : ℤ) ≤ 5 ∧ (2 : ℤ) = (get_nrows_from_nseats 5 180 : ℤ) ∧
    ([4, 7] : List ℤ) = get_rows_from_nrows 2 180 ∧
    ∃ rows : List ℤ,
      emptyInnerLoop 5 [4, 7] = .ok rows ∧
      strategy_branch 5 2 [4, 7] .EMPTY_INNER
        = .ok (2 - rows.length, .ratio ((5 : ℝ) / (rows.sum : ℝ))) ∧
      rows = ([4, 7] : List ℤ).drop (([4, 7] : List ℤ).length - rows.length) ∧
      (5 : ℤ) ≤ rows.sum ∧
      (∀ j : ℕ, ([4, 7] : List ℤ).length - rows.length < j →
        (([4, 7] : List ℤ).drop j).sum < 5) ∧
      allocFrom 5 2 (2 - rows.length) (.ratio ((5 : ℝ) / (rows.sum : ℝ)))
          [4, 7] 0 (rowRange (2 - rows.length) 2)
        = rows.dropLast.map
            (fun c : ℤ => pyRound ((5 : ℝ) / (rows.sum : ℝ) * (c : ℝ)))
          ++ [5 - (rows.dropLast.map
              (fun c : ℤ => pyRound ((5 : ℝ) / (rows.sum : ℝ) * (c : ℝ)))).sum] ∧
      ∀ r : ℤ, 0 ≤ r → r < 2 - rows.length → r ∉ rowRange (2 - rows.length) 2 :=
  ⟨by norm_num,
    by rw [nrows_of_two_to_eleven (by norm_num) (by norm_num)]; norm_num,
    rows_two.symm,
    empty_inner_spec 5 2 [4, 7] (by norm_num)
      (by rw [nrows_of_two_to_eleven (by norm_num) (by norm_num)]; norm_num)
      rows_two.symm⟩

theorem place_rows_nil (nseats nrows starting_row : ℤ) (fill : RowFill)
    (maxed_rows : List ℤ) (sam sr rt : ℝ) (ps : List Seat) :
    place_rows nseats nrows starting_row fill maxed_rows sam sr rt ps [] = .ok ps := rfl

theorem place_rows_cons (nseats nrows starting_row : ℤ) (fill : RowFill)
    (maxed_rows : List ℤ) (sam sr rt : ℝ) (ps : List Seat) (r : ℤ) (rest : List ℤ) :
    place_rows nseats nrows starting_row fill maxed_rows sam sr rt ps (r :: rest)
      = match place_row sam sr rt
          (nseats_this_row nseats nrows starting_row fill maxed_rows
            (ps.length : ℤ) r) r ps with
        | .error e => .error e
        | .ok ps' => place_rows nseats nrows starting_row fill maxed_rows
            sam sr rt ps' rest := rfl

/-- get_seats_centers once the row count and the capacity list are known. -/
theorem get_seats_centers_eval (nseats min_nrows : ℤ) (strat : FillingStrategy)
    (factor span : ℝ) (n : ℤ) (caps : List ℤ)
    (hn : max min_nrows (get_nrows_from_nseats nseats span : ℤ) = n)
    (hcaps : get_rows_from_nrows n span = caps) :
    get_seats_centers nseats min_nrows strat factor span
      = match strategy_branch nseats n caps strat with
        | .error e => .error e
        | .ok (starting_row, fill) =>
            match place_rows nseats n starting_row fill caps
                ((1 - span / 180) * Real.pi / 2)
                (get_row_thickness n * factor) (get_row_thickness n)
                [] (rowRange starting_row n) with
            | .error e => .error e
            | .ok positions => .ok ⟨positions, factor, n⟩ := by
  simp only [get_seats_centers, hn, hcaps]

/-- Evaluation of place_row on a row allocated exactly one seat: the
division computing angle_increment raises ZeroDivisionError. -/
theorem place_row_eval_zeroDiv (sam sr rt : ℝ) (k r : ℤ) (ps : List Seat)
    (hR : ¬ ((0.5 : ℝ) + 2 * (r : ℝ) * rt = 0))
    (hx : ¬ (1 : ℝ) < |sr / ((0.5 : ℝ) + 2 * (r : ℝ) * rt)|)
    (hk : k - 1 = 0) :
    place_row sam sr rt k r ps = .error .zeroDivisionError := by
  simp only [place_row]
  rw [if_neg hR, if_neg hx, if_pos hk]

/-- Evaluation of place_row on a row allocated no seats at all: the empty
range leaves the positions unchanged. -/
theorem place_row_eval_empty (sam sr rt : ℝ) (k r : ℤ) (ps : List Seat)
    (hR : ¬ ((0.5 : ℝ) + 2 * (r : ℝ) * rt = 0))
    (hx : ¬ (1 : ℝ) < |sr / ((0.5 : ℝ) + 2 * (r : ℝ) * rt)|)
    (hk : ¬ k - 1 = 0) (hk1 : ¬ k = 1) (hk0 : k.toNat = 0) :
    place_row sam sr rt k r ps = .ok ps := by
  simp only [place_row]
  rw [if_neg hR, if_neg hx, if_neg hk, if_neg hk1, hk0]
  rfl

/-- Evaluation of place_row on a row of two or more seats. -/
theorem place_row_eval_run (sam sr rt : ℝ) (k r : ℤ) (ps : List Seat)
    (hR : ¬ ((0.5 : ℝ) + 2 * (r : ℝ) * rt = 0))
    (hx : ¬ (1 : ℝ) < |sr / ((0.5 : ℝ) + 2 * (r : ℝ) * rt)|)
    (hk : ¬ k - 1 = 0) (hk1 : ¬ k = 1) :
    place_row sam sr rt k r ps
      = .ok (let R : ℝ := 0.5 + 2 * (r : ℝ) * rt
          let angle_margin := Real.arcsin (sr / R) + sam
          let angle_increment := (Real.pi - 2 * angle_margin) / ((k : ℝ) - 1)
          (List.range k.toNat).foldl (fun ps' s =>
            let angle := seat_angle angle_margin angle_increment s
            dictInsert ps' (R * Real.cos angle + 1, R * Real.sin angle) angle) ps) := by
  simp only [place_row]
  rw [if_neg hR, if_neg hx, if_neg hk, if_neg hk1]

theorem row_thickness_one : get_row_thickness 1 = 1 / 2 := by
  unfold get_row_thickness
  norm_num

theorem row_thickness_two : get_row_thickness 2 = 1 / 6 := by
  unfold get_row_thickness
  norm_num

theorem span_margin_180 : ((1 : ℝ) - 180 / 180) * Real.pi / 2 = 0 := by
  norm_num

/-- get_seats_centers when the strategy match raises. -/
theorem get_seats_centers_eval_error (nseats min_nrows : ℤ) (strat : FillingStrategy)
    (factor span : ℝ) (n : ℤ) (caps : List ℤ) (e : PyError)
    (hn : max min_nrows (get_nrows_from_nseats nseats span : ℤ) = n)
    (hcaps : get_rows_from_nrows n span = caps)
    (hbranch : strategy_branch nseats n caps strat = .error e) :
    get_seats_centers nseats min_nrows strat factor span = .error e := by
  simp only [get_seats_centers, hn, hcaps, hbranch]

/-- get_seats_centers once the strategy branch is resolved. -/
theorem get_seats_centers_eval_ok (nseats min_nrows : ℤ) (strat : FillingStrategy)
    (factor span : ℝ) (n starting_row : ℤ) (caps : List ℤ) (fill : RowFill)
    (hn : max min_nrows (get_nrows_from_nseats nseats span : ℤ) = n)
    (hcaps : get_rows_from_nrows n span = caps)
    (hbranch : strategy_branch nseats n caps strat = .ok (starting_row, fill)) :
    get_seats_centers nseats min_nrows strat factor span
      = match place_rows nseats n starting_row fill caps
            ((1 - span / 180) * Real.pi / 2)
            (get_row_thickness n * factor) (get_row_thickness n)
            [] (rowRange starting_row n) with
        | .error e => .error e
        | .ok positions => .ok ⟨positions, factor, n⟩ := by
  simp only [get_seats_centers, hn, hcaps, hbranch]

/-- pyRound away from a tie is the ordinary floor of x + 1/2. -/
theorem pyRound_eval (x : ℝ) (z : ℤ) (h1 : Int.fract x ≠ 1 / 2)
    (h2 : ⌊x + 1 / 2⌋ = z) : pyRound x = z := by
  unfold pyRound
  rw [if_neg h1, round_eq, h2]

/-- C5 counterexample input: at seatCount 0 the EMPTY_INNER pop loop
empties the row list and pops once more, raising IndexError. -/
theorem empty_inner_raises_at_zero :
    get_seats_centers 0 0 .EMPTY_INNER 1 180 = .error .indexError := by
  have hn : max (0 : ℤ) (get_nrows_from_nseats 0 180 : ℤ) = 1 := by
    rw [nrows_of_le_one (by norm_num)]
    norm_num
  have hbranch : strategy_branch 0 1 [1] .EMPTY_INNER = .error .indexError := by
    simp only [strategy_branch]
    rw [show emptyInnerLoop 0 [1] = .error .indexError from rfl]
  exact get_seats_centers_eval_error 0 0 .EMPTY_INNER 1 180 1 [1] .indexError
    hn rows_one hbranch

/-- C2 failing input: get_seats_centers(1) reaches the one-seat row and
raises ZeroDivisionError computing angle_increment, before the dead
single-seat branch that would place the seat at angle pi/2. -/
theorem single_seat_raises :
    get_seats_centers 1 0 .DEFAULT 1 180 = .error .zeroDivisionError := by
  have hn : max (0 : ℤ) (get_nrows_from_nseats 1 180 : ℤ) = 1 := by
    rw [nrows_of_le_one (by norm_num)]
    norm_num
  have hbranch : strategy_branch 1 1 [1] .DEFAULT
      = .ok (0, .ratio (((1 : ℤ) : ℝ) / ((([1] : List ℤ).sum : ℤ) : ℝ))) := by
    simp only [strategy_branch]
    rw [if_neg (by decide)]
  rw [get_seats_centers_eval_ok 1 0 .DEFAULT 1 180 1 0 [1]
    (.ratio (((1 : ℤ) : ℝ) / ((([1] : List ℤ).sum : ℤ) : ℝ))) hn rows_one hbranch,
    row_thickness_one]
  have hplace : ∀ sam : ℝ,
      place_rows 1 1 0 (.ratio (((1 : ℤ) : ℝ) / ((([1] : List ℤ).sum : ℤ) : ℝ))) [1]
        sam (1 / 2 * 1) (1 / 2) [] (rowRange 0 1) = .error .zeroDivisionError := by
    intro sam
    rw [show rowRange 0 1 = [0] from rfl, place_rows_cons,
      show (([] : List Seat).length : ℤ) = 0 from rfl,
      show nseats_this_row 1 1 0
        (.ratio (((1 : ℤ) : ℝ) / ((([1] : List ℤ).sum : ℤ) : ℝ))) [1] 0 0 = 1 from by
          unfold nseats_this_row
          rw [if_pos (by decide)]
          decide,
      place_row_eval_zeroDiv sam (1 / 2 * 1) (1 / 2) 1 0 []
        (by push_cast; norm_num) (by push_cast; norm_num [abs_le]) (by decide)]
  rw [hplace]

/-- C1 failing input: get_seats_centers(1, OUTER_PRIORITY) processes the
phantom starting row -1 harmlessly and then raises ZeroDivisionError on
the single-seat outermost row, returning no container at all. -/
theorem outer_priority_one_raises :
    get_seats_centers 1 0 .OUTER_PRIORITY 1 180 = .error .zeroDivisionError := by
  have hn : max (0 : ℤ) (get_nrows_from_nseats 1 180 : ℤ) = 1 := by
    rw [nrows_of_le_one (by norm_num)]
    norm_num
  have hbranch : strategy_branch 1 1 [1] .OUTER_PRIORITY = .ok (-1, .fixed 0) := by
    simp only [strategy_branch]
    rw [show outerPriorityLoop 1 [1] = .ok [1] from rfl]
    norm_num
  rw [get_seats_centers_eval_ok 1 0 .OUTER_PRIORITY 1 180 1 (-1) [1]
    (.fixed 0) hn rows_one hbranch, row_thickness_one]
  have hplace : ∀ sam : ℝ,
      place_rows 1 1 (-1) (.fixed 0) [1] sam (1 / 2 * 1) (1 / 2) []
        (rowRange (-1) 1) = .error .zeroDivisionError := by
    intro sam
    rw [show rowRange (-1) 1 = [-1, 0] from rfl, place_rows_cons,
      show (([] : List Seat).length : ℤ) = 0 from rfl,
      show nseats_this_row 1 1 (-1) (.fixed 0) [1] 0 (-1) = 0 from rfl,
      place_row_eval_empty sam (1 / 2 * 1) (1 / 2) 0 (-1) []
        (by push_cast; norm_num) (by push_cast; norm_num)
        (by decide) (by decide) (by decide)]
    show place_rows 1 1 (-1) (.fixed 0) [1] sam (1 / 2 * 1) (1 / 2) [] [0]
      = .error .zeroDivisionError
    rw [place_rows_cons,
      show (([] : List Seat).length : ℤ) = 0 from rfl,
      show nseats_this_row 1 1 (-1) (.fixed 0) [1] 0 0 = 1 from rfl,
      place_row_eval_zeroDiv sam (1 / 2 * 1) (1 / 2) 1 0 []
        (by push_cast; norm_num) (by push_cast; norm_num [abs_le]) (by decide)]
  rw [hplace]

/-- C8 counterexample input: at seatCount 2 row 0 is allocated
round(2/11 * 4) = 1 seat, and the placement raises ZeroDivisionError
instead of producing a seat at angle pi/2. -/
theorem two_seats_raises :
    get_seats_centers 2 0 .DEFAULT 1 180 = .error .zeroDivisionError := by
  have hn : max (0 : ℤ) (get_nrows_from_nseats 2 180 : ℤ) = 2 := by
    rw [nrows_of_two_to_eleven (by norm_num) (by norm_num)]
    norm_num
  have hbranch : strategy_branch 2 2 [4, 7] .DEFAULT
      = .ok (0, .ratio (((2 : ℤ) : ℝ) / ((([4, 7] : List ℤ).sum : ℤ) : ℝ))) := by
    simp only [strategy_branch]
    rw [if_neg (by decide)]
  rw [get_seats_centers_eval_ok 2 0 .DEFAULT 1 180 2 0 [4, 7]
    (.ratio (((2 : ℤ) : ℝ) / ((([4, 7] : List ℤ).sum : ℤ) : ℝ))) hn rows_two hbranch,
    row_thickness_two]
  have hround : nseats_this_row 2 2 0
      (.ratio (((2 : ℤ) : ℝ) / ((([4, 7] : List ℤ).sum : ℤ) : ℝ))) [4, 7] 0 0 = 1 := by
    unfold nseats_this_row
    rw [if_neg (by decide)]
    have harg : (((2 : ℤ) : ℝ) / ((([4, 7] : List ℤ).sum : ℤ) : ℝ))
        * ((([4, 7] : List ℤ).getD (0 : ℤ).toNat 0 : ℤ) : ℝ) = 8 / 11 := by
      norm_num
    show pyRound ((((2 : ℤ) : ℝ) / ((([4, 7] : List ℤ).sum : ℤ) : ℝ))
        * ((([4, 7] : List ℤ).getD (0 : ℤ).toNat 0 : ℤ) : ℝ)) = 1
    rw [harg]
    refine pyRound_eval _ 1 ?_ (by norm_num [Int.floor_eq_iff])
    rw [Int.fract]
    norm_num [Int.floor_eq_iff]
  have hplace : ∀ sam : ℝ,
      place_rows 2 2 0 (.ratio (((2 : ℤ) : ℝ) / ((([4, 7] : List ℤ).sum : ℤ) : ℝ)))
        [4, 7] sam (1 / 6 * 1) (1 / 6) [] (rowRange 0 2) = .error .zeroDivisionError := by
    intro sam
    rw [show rowRange 0 2 = [0, 1] from rfl, place_rows_cons,
      show (([] : List Seat).length : ℤ) = 0 from rfl, hround,
      place_row_eval_zeroDiv sam (1 / 6 * 1) (1 / 6) 1 0 []
        (by push_cast; norm_num) (by push_cast; norm_num [abs_le]) (by decide)]
  rw [hplace]

/-- C8 (amended): within a row of n >= 2 seats, the angles
angle_margin + s * angle_increment with angle_increment =
(pi - 2 * angle_margin) / (n - 1) are symmetric about pi/2:
angle_i + angle_(n-1-i) = pi exactly in real arithmetic.  (A row
allocated exactly one seat never reaches its placement: computing the
increment raises ZeroDivisionError first, see two_seats_raises.) -/
theorem seat_angles_symmetric (angle_margin : ℝ) (n i : ℕ)
    (hn : 2 ≤ n) (hi : i < n) :
    seat_angle angle_margin ((Real.pi - 2 * angle_margin) / ((n : ℝ) - 1)) i
      + seat_angle angle_margin ((Real.pi - 2 * angle_margin) / ((n : ℝ) - 1)) (n - 1 - i)
      = Real.pi := by
  unfold seat_angle
  have h2 : (2 : ℝ) ≤ (n : ℝ) := by exact_mod_cast hn
  have h1 : ((n : ℝ) - 1) ≠ 0 := by nlinarith
  have hcast : ((n - 1 - i : ℕ) : ℝ) = (n : ℝ) - 1 - (i : ℝ) := by
    have he : n - 1 - i = n - (1 + i) := by omega
    have hle : 1 + i ≤ n := by omega
    rw [he, Nat.cast_sub hle]
    push_cast
    ring
  rw [hcast]
  field_simp
  ring

/-- Witness for seat_angles_symmetric: margin 0, two seats, first seat. -/
theorem seat_angles_symmetric_witness :
    2 ≤ 2 ∧ (0 : ℕ) < 2 ∧
      seat_angle 0 ((Real.pi - 2 * 0) / (((2 : ℕ) : ℝ) - 1)) 0
        + seat_angle 0 ((Real.pi - 2 * 0) / (((2 : ℕ) : ℝ) - 1)) (2 - 1 - 0)
        = Real.pi :=
  ⟨le_refl 2, by norm_num, seat_angles_symmetric 0 2 0 (le_refl 2) (by norm_num)⟩

/-- C3 (amended): the order consumed by the renderer is the one
get_svg_from_attribution builds by sorting the container's entries by
descending angle; in dispatch_order every earlier entry's angle is at
least every later entry's angle. -/
theorem dispatch_order_sorted (c : SeatsCenterContainer) :
    (dispatch_order c).Pairwise angleGE :=
  List.sorted_insertionSort angleGE c.positions

/-- Witness for dispatch_order_sorted on a concrete empty container. -/
theorem dispatch_order_sorted_witness :
    (dispatch_order ⟨[], 1, 1⟩).Pairwise angleGE :=
  dispatch_order_sorted ⟨[], 1, 1⟩

theorem dictInsert_nil (k : ℝ × ℝ) (v : ℝ) : dictInsert [] k v = [(k, v)] := by
  unfold dictInsert
  rw [if_neg (by simp)]
  rfl

theorem dictInsert_single (e : Seat) (k : ℝ × ℝ) (v : ℝ) (h : e.1 ≠ k) :
    dictInsert [e] k v = [e, (k, v)] := by
  unfold dictInsert
  rw [if_neg (by simpa using h)]
  rfl

/-- C3 counterexample: at seatCount 2 with OUTER_PRIORITY the container
holds the outermost row's two seats in insertion order, whose angles are
arcsin(1/5) and pi - arcsin(1/5): the earlier entry's angle is strictly
below the later one's, so the placer's own output is not sorted by
descending angle. -/
theorem positions_not_angle_descending :
    (outputAngles (get_seats_centers 2 0 .OUTER_PRIORITY 1 180)).getD 0 0
      < (outputAngles (get_seats_centers 2 0 .OUTER_PRIORITY 1 180)).getD 1 0 := by
  have hn : max (0 : ℤ) (get_nrows_from_nseats 2 180 : ℤ) = 2 := by
    rw [nrows_of_two_to_eleven (by norm_num) (by norm_num)]
    norm_num
  have hbranch : strategy_branch 2 2 [4, 7] .OUTER_PRIORITY = .ok (1, .fixed 2) := by
    simp only [strategy_branch]
    rw [show outerPriorityLoop 2 [4, 7] = .ok [] from rfl]
    norm_num
  rw [get_seats_centers_eval_ok 2 0 .OUTER_PRIORITY 1 180 2 1 [4, 7] (.fixed 2)
      hn rows_two hbranch, row_thickness_two, span_margin_180,
    show rowRange 1 2 = [1] from rfl]
  rw [place_rows_cons, show (([] : List Seat).length : ℤ) = 0 from rfl,
    show nseats_this_row 2 2 1 (.fixed 2) [4, 7] 0 1 = 2 from rfl,
    place_row_eval_run 0 (1 / 6 * 1) (1 / 6) 2 1 []
      (by push_cast; norm_num) (by push_cast; norm_num [abs_le])
      (by decide) (by decide)]
  rw [show (0.5 : ℝ) + 2 * ((1 : ℤ) : ℝ) * (1 / 6) = 5 / 6 from by push_cast; norm_num]
  simp only [show ((1 : ℝ) / 6 * 1) / ((5 : ℝ) / 6) = 1 / 5 from by norm_num,
    show ((2 : ℤ) : ℝ) - 1 = 1 from by push_cast; norm_num,
    add_zero, div_one, show ((2 : ℤ)).toNat = 2 from rfl,
    show List.range 2 = [0, 1] from rfl, List.foldl_cons, List.foldl_nil,
    dictInsert_nil]
  rw [dictInsert_single _ _ _ ?hne]
  case hne =>
    have hc0 : seat_angle (Real.arcsin (1 / 5)) (Real.pi - 2 * Real.arcsin (1 / 5)) 0
        = Real.arcsin (1 / 5) := by
      unfold seat_angle
      push_cast
      ring
    have hc1 : seat_angle (Real.arcsin (1 / 5)) (Real.pi - 2 * Real.arcsin (1 / 5)) 1
        = Real.pi - Real.arcsin (1 / 5) := by
      unfold seat_angle
      push_cast
      ring
    simp only [hc0, hc1, ne_eq, Prod.mk.injEq, not_and]
    intro hx
    exfalso
    rw [Real.cos_pi_sub, Real.cos_arcsin] at hx
    have hpos : 0 < Real.sqrt (1 - (1 / 5 : ℝ) ^ 2) := Real.sqrt_pos.mpr (by norm_num)
    nlinarith [hx, hpos]
  simp only [place_rows_nil, outputAngles, List.map_cons, List.map_nil,
    List.getD_cons_zero, List.getD_cons_succ]
  have hc0 : seat_angle (Real.arcsin (1 / 5)) (Real.pi - 2 * Real.arcsin (1 / 5)) 0
      = Real.arcsin (1 / 5) := by
    unfold seat_angle
    push_cast
    ring
  have hc1 : seat_angle (Real.arcsin (1 / 5)) (Real.pi - 2 * Real.arcsin (1 / 5)) 1
      = Real.pi - Real.arcsin (1 / 5) := by
    unfold seat_angle
    push_cast
    ring
  rw [hc0, hc1]
  have harc : Real.arcsin (1 / 5) < Real.pi / 2 :=
    Real.arcsin_lt_pi_div_two.mpr (by norm_num)
  linarith

end Parliamentarch
